import Mathlib

/-!
Verification development for the jaxns nested-sampling engine.

The engine (`NestedSampler` in `jaxns/nested_sampling.py`) is embedded as a
state-passing functional program over exact rationals: the JAX arrays become
lists, `jnp.argmin` becomes `argmin` below (first occurrence of the minimum),
`dynamic_update_slice` on a one-dimensional buffer becomes `List.set`, and the
transcendental kernels (`exp`, `log`, `logsumexp`) are threaded through an
`Ops` record so that every structural statement is proved for every
interpretation of those kernels.  Floating-point classification questions
(NaN coercion, Gumbel clamping) use a dedicated extended-value type `Fl`.
The exact log-sum-exp normalisation of the importance weights is proved over
the real numbers.
-/

namespace JaxNS

/-- Minimum of a list of rationals (0 for the empty list, which never occurs
in the engine: the live set is non-empty). -/
def listMin : List ℚ → ℚ
  | [] => 0
  | [x] => x
  | x :: y :: t => min x (listMin (y :: t))

/-- Index of the first occurrence of the minimum, as computed by
`jnp.argmin` (ties broken by lowest index). -/
def argmin : List ℚ → ℕ
  | [] => 0
  | [_] => 0
  | x :: y :: t => if x ≤ listMin (y :: t) then 0 else argmin (y :: t) + 1

theorem argmin_lt_length : ∀ (l : List ℚ), l ≠ [] → argmin l < l.length := by
  intro l
  induction l with
  | nil => intro h; exact absurd rfl h
  | cons x xs ih =>
    intro _
    cases xs with
    | nil => simp [argmin]
    | cons y t =>
      by_cases hx : x ≤ listMin (y :: t)
      · simp [argmin, hx]
      · have h := ih (by simp)
        simp only [argmin, if_neg hx, List.length_cons] at h ⊢
        omega

theorem listMin_le_getD : ∀ (l : List ℚ) (j : ℕ), j < l.length → listMin l ≤ l.getD j 0 := by
  intro l
  induction l with
  | nil => intro j h; simp at h
  | cons x xs ih =>
    intro j hj
    cases xs with
    | nil =>
      cases j with
      | zero => simp [listMin]
      | succ j => simp at hj
    | cons y t =>
      cases j with
      | zero => simp [listMin]
      | succ j =>
        have hj' : j < (y :: t).length := by simpa using hj
        calc listMin (x :: y :: t) ≤ listMin (y :: t) := by simp [listMin]
          _ ≤ (y :: t).getD j 0 := ih j hj'
          _ = (x :: y :: t).getD (j + 1) 0 := by simp

theorem getD_argmin : ∀ (l : List ℚ), l ≠ [] → l.getD (argmin l) 0 = listMin l := by
  intro l
  induction l with
  | nil => intro h; exact absurd rfl h
  | cons x xs ih =>
    intro _
    cases xs with
    | nil => simp [argmin, listMin]
    | cons y t =>
      by_cases hx : x ≤ listMin (y :: t)
      · simp [argmin, listMin, hx]
      · have h1 : (y :: t).getD (argmin (y :: t)) 0 = listMin (y :: t) := ih (by simp)
        simp only [argmin, if_neg hx, listMin]
        push_neg at hx
        rw [min_eq_right hx.le]
        simpa using h1

theorem listMin_lt_getD_of_lt_argmin :
    ∀ (l : List ℚ) (j : ℕ), j < argmin l → listMin l < l.getD j 0 := by
  intro l
  induction l with
  | nil => intro j h; simp [argmin] at h
  | cons x xs ih =>
    intro j hj
    cases xs with
    | nil => simp [argmin] at hj
    | cons y t =>
      by_cases hx : x ≤ listMin (y :: t)
      · simp [argmin, hx] at hj
      · simp only [argmin, if_neg hx] at hj
        push_neg at hx
        cases j with
        | zero =>
          simpa [listMin, min_eq_right hx.le] using hx
        | succ j =>
          have := ih j (by omega)
          simpa [listMin, min_eq_right hx.le] using this

/-- Interpretation of the transcendental kernels used by the engine:
`jnp.exp`, `jnp.log` and jax's numerically stable `logsumexp`.  The engine's
control flow is independent of the interpretation, so every structural
theorem below is stated for an arbitrary `Ops`. -/
structure Ops where
  exp : ℚ → ℚ
  log : ℚ → ℚ
  lse : List ℚ → ℚ

/-- Modelled from the spec: `TrackedExpectation` (module `jaxns.param_tracking`)
is not in the source tree.  Per spec 4.3 it maintains, in log space, the
remaining volume X (expected multiplicative shrinkage `exp(-1/N)` per
elimination), the last log-weight dw (volume shed combined with the eliminated
likelihood), and the running evidence mean; `none` encodes log 0 = -infinity.
Accumulators the nested-sampling loop never reads (variance, information gain,
marginal moments) are omitted. -/
structure Tracker where
  logX : ℚ
  logDw : Option ℚ
  logZ : Option ℚ
deriving DecidableEq

/-- Tracker state at initialisation: X = 1, Z = 0 (log-space `-inf`). -/
def Tracker.init : Tracker := { logX := 0, logDw := none, logZ := none }

/-- Modelled from the spec: one `TrackedExpectation.update(dead_point, N, log_L_min)`
call — advance X by the expected shrinkage `-1/N`, form the incremental
log-weight from the shed volume and the eliminated log-likelihood, and fold it
into the evidence mean by log-sum-exp combination. -/
def trackerUpdate (ops : Ops) (tr : Tracker) (N : ℕ) (logLMin : ℚ) : Tracker :=
  let logXNew := tr.logX - 1 / (N : ℚ)
  let logDwNew := ops.log (ops.exp tr.logX - ops.exp logXNew) + logLMin
  let logZNew :=
    match tr.logZ with
    | none => some logDwNew
    | some z => some (ops.log (ops.exp z + ops.exp logDwNew))
  { logX := logXNew, logDw := some logDwNew, logZ := logZNew }

/-- Result record returned by one constrained-sampler invocation
(`slice_sampling` / `multi_ellipsoid_sampler`): advanced PRNG key, new point in
uniform and constrained coordinates, its log-likelihood, likelihood-evaluation
count and advanced sampler state. -/
structure SamplerResult where
  key : ℕ
  uNew : List ℚ
  xNew : ℚ
  logLNew : ℚ
  numLikelihoodEvaluations : ℕ
  samplerState : ℕ
deriving DecidableEq

/-- Modelled from the spec: the two concrete constrained-likelihood samplers
live in `jaxns.likelihood_samplers`, which is not in the source tree.  Per
spec 4.2 and 5 a sampler is a deterministic function of the PRNG key, the
likelihood threshold, the live points in uniform coordinates, the sampler
state, the current log-volume and the index being replaced. -/
def ConstrainedSampler : Type :=
  ℕ → ℚ → List (List ℚ) → ℕ → ℚ → ℕ → SamplerResult

/-- The fields of `NestedSamplerState` that the claims touch.  Bounded buffers
are lists of length `max_samples`; buffers that `initial_state` sets to `None`
under `only_marginalise` are `Option`-valued; the `log_X`/`log_w` buffers are
initialised to `-inf`, encoded by inner `none`s.  Constrained samples (dicts in
the source) are modelled as single rational values. -/
structure NSState where
  key : ℕ
  done : Bool
  i : ℕ
  numLikelihoodEvaluations : ℕ
  livePointsU : List (List ℚ)
  livePoints : List ℚ
  logLLive : List ℚ
  deadPoints : Option (List ℚ)
  logX : Option (List (Option ℚ))
  logW : Option (List (Option ℚ))
  numDead : ℕ
  logLDead : Option (List ℚ)
  samplerEfficiency : Option (List ℚ)
  status : ℕ
  samplerState : ℕ
  tracker : Tracker
deriving DecidableEq

/-- Translation of `NestedSampler._one_step`: eliminate the live point of minimum
log-likelihood (first index on ties), update the tracker, append to the
bounded buffers unless `only_marginalise`, draw a replacement from the
constrained sampler and overwrite the eliminated slot. -/
def oneStep (ops : Ops) (sampler : ConstrainedSampler)
    (collectSamples onlyMarginalise : Bool) (st : NSState) : NSState :=
  let iMin := argmin st.logLLive
  let deadPoint := st.livePoints.getD iMin 0
  let logLMin := st.logLLive.getD iMin 0
  let N := st.logLLive.length
  let tr := trackerUpdate ops st.tracker N logLMin
  let st1 :=
    if onlyMarginalise then st
    else
      let stb :=
        { st with
          logX := st.logX.map (fun b => b.set st.numDead (some tr.logX))
          logW := st.logW.map (fun b => b.set st.numDead tr.logDw)
          logLDead := st.logLDead.map (fun b => b.set st.numDead logLMin) }
      if collectSamples then
        { stb with deadPoints := stb.deadPoints.map (fun b => b.set st.numDead deadPoint) }
      else stb
  let res := sampler st1.key logLMin st1.livePointsU st1.samplerState tr.logX iMin
  let logLLiveNew := st1.logLLive.set iMin res.logLNew
  let livePointsNew := st1.livePoints.set iMin res.xNew
  let livePointsUNew := st1.livePointsU.set iMin res.uNew
  let st2 :=
    if onlyMarginalise then st1
    else
      { st1 with
        samplerEfficiency :=
          st1.samplerEfficiency.map
            (fun b => b.set st1.numDead (1 / (res.numLikelihoodEvaluations : ℚ))) }
  { st2 with
    key := res.key
    numLikelihoodEvaluations := st2.numLikelihoodEvaluations + res.numLikelihoodEvaluations
    logLLive := logLLiveNew
    livePoints := livePointsNew
    livePointsU := livePointsUNew
    samplerState := res.samplerState
    tracker := tr
    numDead := st2.numDead + 1 }

/-- The comparison `logZ_live < log(termination_frac) + evidence_mean()` with
an evidence mean of `-inf` (`none`) making the comparison false, as it does in
floating point. -/
def ltEvidence (ops : Ops) (a : ℚ) (f : ℚ) (z : Option ℚ) : Bool :=
  match z with
  | none => false
  | some z => decide (a < ops.log f + z)

/-- The loop body of `NestedSampler.__call__`: one elimination/replacement
step, then the termination check on the updated state — the live-set residual
evidence `logsumexp(log_L_live) - log N + log X` against
`log(termination_frac)` plus the accumulated evidence, or the iteration cap. -/
def body (ops : Ops) (sampler : ConstrainedSampler) (terminationFrac : ℚ)
    (maxSamples : ℕ) (collectSamples onlyMarginalise : Bool) (st : NSState) : NSState :=
  let st1 := oneStep ops sampler collectSamples onlyMarginalise st
  let logZLive :=
    ops.lse st1.logLLive - ops.log ((st1.logLLive.length : ℚ)) + st1.tracker.logX
  let doneNew :=
    ltEvidence ops logZLive terminationFrac st1.tracker.logZ
      || decide (st1.i + 1 ≥ maxSamples)
  { st1 with done := doneNew, i := st1.i + 1 }

/-- Translation of `jax.lax.while_loop(lambda state: ~state.done, body, state)` with explicit
fuel; fuel `max_samples` is enough because `body` sets `done` once the
iteration counter reaches `max_samples`. -/
def loop (ops : Ops) (sampler : ConstrainedSampler) (terminationFrac : ℚ)
    (maxSamples : ℕ) (collectSamples onlyMarginalise : Bool) :
    ℕ → NSState → NSState
  | 0, st => st
  | fuel + 1, st =>
    if st.done then st
    else
      loop ops sampler terminationFrac maxSamples collectSamples onlyMarginalise fuel
        (body ops sampler terminationFrac maxSamples collectSamples onlyMarginalise st)

/-- The engine's collaborators at initialisation, as deterministic functions:
uniform draws keyed by PRNG key and index, the prior-chain forward
composition, the wrapped likelihood on constrained values, key splitting, and
the sampler-state initialiser. -/
structure Env where
  drawU : ℕ → ℕ → List ℚ
  transform : List ℚ → ℚ
  logLik : ℚ → ℚ
  splitKey : ℕ → ℕ × ℕ
  initSamplerState : ℕ → List (List ℚ) → ℕ

/-- Translation of `NestedSampler.initial_state`: draw `num_live_points` initial samples,
allocate the bounded buffers (dead log-likelihoods to zeros, efficiencies to
ones, `log_X`/`log_w` to `-inf`) unless `only_marginalise`, initialise the
tracker and the sampler state, with `status = 0` and `done = False`. -/
def initialState (env : Env) (key : ℕ) (numLivePoints maxSamples : ℕ)
    (collectSamples onlyMarginalise : Bool) : NSState :=
  let kp := env.splitKey key
  let liveU := (List.range numLivePoints).map (env.drawU kp.2)
  let liveX := liveU.map env.transform
  let logLLive := liveX.map env.logLik
  let kp2 := env.splitKey kp.1
  { key := kp2.1
    done := false
    i := 0
    numLikelihoodEvaluations := numLivePoints
    livePointsU := liveU
    livePoints := liveX
    logLLive := logLLive
    deadPoints :=
      if onlyMarginalise then none
      else if collectSamples then some (List.replicate maxSamples 0) else none
    logX := if onlyMarginalise then none else some (List.replicate maxSamples none)
    logW := if onlyMarginalise then none else some (List.replicate maxSamples none)
    numDead := 0
    logLDead := if onlyMarginalise then none else some (List.replicate maxSamples 0)
    samplerEfficiency :=
      if onlyMarginalise then none else some (List.replicate maxSamples 1)
    status := 0
    samplerState := env.initSamplerState kp2.2 liveU
    tracker := Tracker.init }

/-- Translation of `NestedSampler.__call__` up to finalisation: initial state, then the
while loop. -/
def run (ops : Ops) (env : Env) (sampler : ConstrainedSampler) (key : ℕ)
    (numLivePoints maxSamples : ℕ) (collectSamples onlyMarginalise : Bool)
    (terminationFrac : ℚ) : NSState :=
  loop ops sampler terminationFrac maxSamples collectSamples onlyMarginalise maxSamples
    (initialState env key numLivePoints maxSamples collectSamples onlyMarginalise)

/-- IEEE-style extended values for the floating-point classification claims:
a finite value, the two infinities, or NaN. -/
inductive Fl where
  | fin : ℚ → Fl
  | pinf : Fl
  | ninf : Fl
  | nan : Fl
deriving DecidableEq

/-- The test `jnp.isnan`. -/
def Fl.isNan : Fl → Bool
  | .nan => true
  | _ => false

/-- Whether a value is finite (neither an infinity nor NaN). -/
def Fl.isFinite : Fl → Bool
  | .fin _ => true
  | _ => false

/-- IEEE negation. -/
def flNeg : Fl → Fl
  | .fin q => .fin (-q)
  | .pinf => .ninf
  | .ninf => .pinf
  | .nan => .nan

/-- The operation `jnp.maximum` (NaN propagates). -/
def flMax : Fl → Fl → Fl
  | .nan, _ => .nan
  | _, .nan => .nan
  | .pinf, _ => .pinf
  | _, .pinf => .pinf
  | .ninf, y => y
  | x, .ninf => x
  | .fin a, .fin b => .fin (max a b)

/-- IEEE addition. -/
def flAdd : Fl → Fl → Fl
  | .nan, _ => .nan
  | _, .nan => .nan
  | .pinf, .ninf => .nan
  | .ninf, .pinf => .nan
  | .pinf, _ => .pinf
  | _, .pinf => .pinf
  | .ninf, _ => .ninf
  | _, .ninf => .ninf
  | .fin a, .fin b => .fin (a + b)

/-- IEEE `log` classification: finite on positive finite inputs (with the
finite value given by an abstract real logarithm `rlog` on the rationals),
`-inf` at zero, NaN on negative inputs and on `-inf`/NaN, `+inf` at `+inf`. -/
def flLog (rlog : ℚ → ℚ) : Fl → Fl
  | .fin q => if 0 < q then .fin (rlog q) else if q = 0 then .ninf else .nan
  | .pinf => .pinf
  | .ninf => .nan
  | .nan => .nan

/-- IEEE strict greater-than (false whenever either side is NaN). -/
def flGt : Fl → Fl → Bool
  | .nan, _ => false
  | _, .nan => false
  | .pinf, .pinf => false
  | .pinf, _ => true
  | _, .pinf => false
  | .ninf, .ninf => false
  | _, .ninf => true
  | .ninf, _ => false
  | .fin a, .fin b => decide (b < a)

/-- The operation `jnp.argmax` via a left fold keeping the first index whose value beats the
running best under IEEE greater-than. -/
def argmaxFl (l : List Fl) : ℕ :=
  (l.foldl
    (fun acc x =>
      if flGt x acc.2.2 then (acc.1 + 1, acc.1, x) else (acc.1 + 1, acc.2.1, acc.2.2))
    ((0, 0, Fl.ninf) : ℕ × ℕ × Fl)).2.1

/-- The machine epsilon `jnp.finfo(U.dtype).eps` for float64. -/
def machEps : ℚ := 1 / 2 ^ 52

/-- Translation of `Gumbel.forward` on one component:
`-log(-log(maximum(U, eps)))` with the input clamped away from 0. -/
def gumbelComp (rlog : ℚ → ℚ) (u : Fl) : Fl :=
  flNeg (flLog rlog (flNeg (flLog rlog (flMax u (Fl.fin machEps)))))

/-- Translation of `Gumbel.forward` on a vector. -/
def gumbelForward (rlog : ℚ → ℚ) (U : List Fl) : List Fl :=
  U.map (gumbelComp rlog)

/-- Translation of `CategoricalPrior.forward`: `argmax(logits + gumbel)` as a (finite,
integer-valued) array entry. -/
def categoricalForward (rlog : ℚ → ℚ) (U : List Fl) (logits : List Fl) : Fl :=
  Fl.fin ((argmaxFl (List.zipWith flAdd logits (gumbelForward rlog U)) : ℚ))

/-- One output of the collaborator likelihood: its shape and its value. -/
structure LikelihoodOutput where
  shape : List ℕ
  val : Fl
deriving DecidableEq

/-- The wrapped likelihood `fixed_likelihood` built in `NestedSampler.__init__`:
raise `ValueError` when the output shape is not scalar, otherwise
`jnp.where(jnp.isnan(log_L), -inf, log_L)`. -/
def fixedLikelihood (out : LikelihoodOutput) : Except String Fl :=
  if out.shape ≠ [] then
    Except.error "Shape of likelihood should be scalar"
  else
    Except.ok (if out.val.isNan then Fl.ninf else out.val)

/-- A collaborator likelihood function: a fixed output shape and a value for
each (modelled, scalar) input sample. -/
structure Likelihood where
  shape : List ℕ
  val : ℚ → Fl

/-- The data `NestedSampler.__init__` stores. -/
structure SamplerSetup where
  samplerName : String
  lik : Likelihood

/-- Translation of `NestedSampler.__init__`: validates the sampler name against
`_available_samplers` and stores the (wrapped, but not yet called) likelihood;
the likelihood itself is not evaluated at construction. -/
def mkNestedSampler (lik : Likelihood) (samplerName : String) :
    Except String SamplerSetup :=
  if samplerName = "slice" ∨ samplerName = "multi_ellipsoid" then
    Except.ok ⟨samplerName, lik⟩
  else
    Except.error "sampler should be one of the available samplers"

/-- Calling the wrapped likelihood on one input sample. -/
def callFixedLikelihood (ns : SamplerSetup) (x : ℚ) : Except String Fl :=
  fixedLikelihood ⟨ns.lik.shape, ns.lik.val x⟩

/-- The likelihood evaluations `initial_state` performs over the initial
draws (the first point at which the wrapped likelihood actually runs). -/
def initialLogL (ns : SamplerSetup) (draws : List ℚ) : Except String (List Fl) :=
  draws.mapM (callFixedLikelihood ns)

/-- Whether an `Except` carries a value (construction or call succeeded). -/
def exceptOk {ε α : Type} : Except ε α → Bool
  | .ok _ => true
  | .error _ => false

/-- A prior-transform node as the claims need it: its uniform dimensionality
and its forward map on its uniform slice. -/
structure PriorT where
  uNdims : ℕ
  forward : List ℚ → ℚ

/-- Translation of `DeltaPrior(value)`: registers with zero uniform dimensions
(`super().__init__(name, 0, [], tracked)`) and `forward` returns the stored
value for every `U`. -/
def DeltaPrior (value : ℚ) : PriorT :=
  ⟨0, fun _ => value⟩

/-- Translation of `UniformPrior(low, high)` in the scalar case: one uniform dimension and
`forward(U) = low + U * (high - low)`. -/
def UniformPrior (low high : ℚ) : PriorT :=
  ⟨1, fun U => low + U.getD 0 0 * (high - low)⟩

/-- jax's `logsumexp` in exact real arithmetic. -/
noncomputable def lseR (l : List ℝ) : ℝ :=
  Real.log ((l.map Real.exp).sum)

/-- The function `logsumexp` over log-space values where `none` encodes `-inf` (a `-inf`
entry contributes `exp(-inf) = 0` to the sum). -/
noncomputable def lseO (l : List (Option ℝ)) : Option ℝ :=
  if l.filterMap id = [] then none else some (lseR (l.filterMap id))

/-- Line 353 of `_finalise_results`: `log_p = log_w - logsumexp(log_w)`
elementwise, where `c` is the value of `logsumexp(log_w)`. -/
def finalLogP (logW : List (Option ℝ)) (c : ℝ) : List (Option ℝ) :=
  logW.map (Option.map (fun w => w - c))

/-- A kernel interpretation that makes the live-set residual large, so that in
the concrete test runs only the sample cap can fire. -/
def opsBig : Ops :=
  { exp := fun _ => 0, log := fun _ => 0, lse := fun _ => 100 }

/-- A concrete deterministic environment for test runs. -/
def envZero : Env :=
  { drawU := fun _ _ => [0], transform := fun _ => 0, logLik := fun _ => 0,
    splitKey := fun k => (k, k), initSamplerState := fun _ _ => 0 }

/-- A concrete sampler whose replacement always sits one unit above the
threshold. -/
def samplerInc : ConstrainedSampler :=
  fun k lmin _ ss _ _ =>
    { key := k, uNew := [0], xNew := 0, logLNew := lmin + 1,
      numLikelihoodEvaluations := 1, samplerState := ss }

/-- A concrete likelihood with non-scalar output shape. -/
def badShapeLik : Likelihood :=
  { shape := [2], val := fun _ => Fl.fin 0 }

/-- The claim-side termination formula, written from the spec's words: the
live-set residual evidence — log-sum-exp of the live log-likelihoods minus
log N, plus the remaining log-volume X — lies strictly below
log(termination_frac) plus the accumulated evidence mean (and an evidence
mean of zero, log-space `-inf`, cannot be undercut). -/
def residualBelowEvidence (ops : Ops) (terminationFrac : ℚ) (st : NSState) : Prop :=
  match st.tracker.logZ with
  | none => False
  | some z =>
      ops.lse st.logLLive - ops.log ((st.logLLive.length : ℚ)) + st.tracker.logX
        < ops.log terminationFrac + z

/-- C1: the loop body halts the run exactly when, on the state updated by the
elimination/replacement step (so after the tracker update), the live-set
residual evidence falls strictly below log(termination_frac) plus the
accumulated evidence mean, or the incremented iteration counter reaches
`max_samples` — whichever occurs first, since the while loop re-enters the
body only while `done` is false. -/
theorem termination_predicate (ops : Ops) (sampler : ConstrainedSampler)
    (f : ℚ) (maxS : ℕ) (collect onlyMarg : Bool) (st : NSState) (fuel : ℕ) :
    ((body ops sampler f maxS collect onlyMarg st).done = true
        ↔ (residualBelowEvidence ops f (oneStep ops sampler collect onlyMarg st)
            ∨ (oneStep ops sampler collect onlyMarg st).i + 1 ≥ maxS))
      ∧ (loop ops sampler f maxS collect onlyMarg (fuel + 1) st
          = if st.done = true then st
            else loop ops sampler f maxS collect onlyMarg fuel
                (body ops sampler f maxS collect onlyMarg st)) := by
  constructor
  · show (ltEvidence ops _ f (oneStep ops sampler collect onlyMarg st).tracker.logZ
        || decide ((oneStep ops sampler collect onlyMarg st).i + 1 ≥ maxS)) = true ↔ _
    rw [Bool.or_eq_true, decide_eq_true_eq]
    cases h : (oneStep ops sampler collect onlyMarg st).tracker.logZ with
    | none => simp [ltEvidence, residualBelowEvidence, h]
    | some z => simp [ltEvidence, residualBelowEvidence, h]
  · rfl

/-- C3: runs are reproducible: two calls of the engine with equal PRNG key,
equal collaborators (prior chain, likelihood, sampler) and equal
configuration produce equal dead-point records (`log_L_dead` buffer,
dead-point buffer and count) and an equal final evidence accumulator. -/
theorem run_reproducible (ops : Ops) (env : Env) (sampler : ConstrainedSampler)
    (k1 k2 n1 n2 m1 m2 : ℕ) (c1 c2 o1 o2 : Bool) (f1 f2 : ℚ)
    (hk : k1 = k2) (hn : n1 = n2) (hm : m1 = m2) (hc : c1 = c2)
    (ho : o1 = o2) (hf : f1 = f2) :
    (run ops env sampler k1 n1 m1 c1 o1 f1).logLDead
        = (run ops env sampler k2 n2 m2 c2 o2 f2).logLDead
      ∧ (run ops env sampler k1 n1 m1 c1 o1 f1).deadPoints
        = (run ops env sampler k2 n2 m2 c2 o2 f2).deadPoints
      ∧ (run ops env sampler k1 n1 m1 c1 o1 f1).numDead
        = (run ops env sampler k2 n2 m2 c2 o2 f2).numDead
      ∧ (run ops env sampler k1 n1 m1 c1 o1 f1).tracker.logZ
        = (run ops env sampler k2 n2 m2 c2 o2 f2).tracker.logZ := by
  subst hk; subst hn; subst hm; subst hc; subst ho; subst hf
  exact ⟨rfl, rfl, rfl, rfl⟩

/-- Witness for C3 at a concrete key and configuration. -/
theorem run_reproducible_witness :
    (0 : ℕ) = 0 ∧ (1 : ℕ) = 1 ∧ (2 : ℕ) = 2 ∧ true = true ∧ false = false
      ∧ (1 : ℚ) = 1
      ∧ ((run opsBig envZero samplerInc 0 1 2 true false 1).logLDead
            = (run opsBig envZero samplerInc 0 1 2 true false 1).logLDead
          ∧ (run opsBig envZero samplerInc 0 1 2 true false 1).deadPoints
            = (run opsBig envZero samplerInc 0 1 2 true false 1).deadPoints
          ∧ (run opsBig envZero samplerInc 0 1 2 true false 1).numDead
            = (run opsBig envZero samplerInc 0 1 2 true false 1).numDead
          ∧ (run opsBig envZero samplerInc 0 1 2 true false 1).tracker.logZ
            = (run opsBig envZero samplerInc 0 1 2 true false 1).tracker.logZ) :=
  ⟨rfl, rfl, rfl, rfl, rfl, rfl,
    run_reproducible opsBig envZero samplerInc 0 0 1 1 2 2 true true false false 1 1
      rfl rfl rfl rfl rfl rfl⟩

/-- C4 counterexample: a `+inf` likelihood output is not coerced to `-inf`:
the wrapper tests only `jnp.isnan`, and `+inf` is not NaN. -/
theorem coerce_pinf_counterexample :
    fixedLikelihood ⟨[], Fl.pinf⟩ = Except.ok Fl.pinf ∧ Fl.pinf ≠ Fl.ninf :=
  ⟨rfl, by decide⟩

/-- C4 amended: for a scalar output the wrapped likelihood raises nothing and
coerces exactly the NaN outputs to `-inf`; a `-inf` output is returned
unchanged (already `-inf`), while `+inf` and finite outputs pass through
unchanged. -/
theorem fixed_likelihood_coercion :
    fixedLikelihood ⟨[], Fl.nan⟩ = Except.ok Fl.ninf
      ∧ fixedLikelihood ⟨[], Fl.ninf⟩ = Except.ok Fl.ninf
      ∧ fixedLikelihood ⟨[], Fl.pinf⟩ = Except.ok Fl.pinf
      ∧ ∀ q : ℚ, fixedLikelihood ⟨[], Fl.fin q⟩ = Except.ok (Fl.fin q) :=
  ⟨rfl, rfl, rfl, fun _ => rfl⟩

/-- The status field is copied unchanged through one loop body. -/
theorem body_status_eq (ops : Ops) (sampler : ConstrainedSampler) (f : ℚ)
    (maxS : ℕ) (c o : Bool) (st : NSState) :
    (body ops sampler f maxS c o st).status = st.status := by
  cases o <;> cases c <;> rfl

/-- C5: every run terminates gracefully (the loop is a total function), but
the final state of every run — in particular one that exhausts `max_samples`
before the termination predicate fires — still carries `status = 0`, the
value the source's own comment documents as `0=good`; the documented
`1=max samples reached` status is never assigned anywhere, and
`_finalise_results` does not read or report the status field at all. -/
theorem max_samples_status_unreported (ops : Ops) (env : Env)
    (sampler : ConstrainedSampler) (k n maxS : ℕ) (c o : Bool) (f : ℚ) :
    (run ops env sampler k n maxS c o f).status = 0 := by
  have hinit : (initialState env k n maxS c o).status = 0 := by
    cases o <;> cases c <;> rfl
  suffices h : ∀ fuel st, (loop ops sampler f maxS c o fuel st).status = st.status by
    rw [run, h, hinit]
  intro fuel
  induction fuel with
  | zero => intro st; rfl
  | succ fuel ih =>
    intro st
    rw [loop]
    by_cases hd : st.done
    · simp [hd]
    · simp only [hd]
      rw [if_neg (by simp [hd]), ih, body_status_eq]

/-- C7 counterexample: constructing the sampler around a likelihood of
non-scalar output shape does not raise: `__init__` validates the sampler name
but never evaluates the likelihood. -/
theorem nonscalar_init_ok_counterexample :
    exceptOk (mkNestedSampler badShapeLik "slice") = true := by
  decide

/-- C7 amended: a non-scalar likelihood output is a fatal error, but it is
raised at the first evaluation of the wrapped likelihood — during
`initial_state` inside the first run call — while construction itself
succeeds. -/
theorem nonscalar_error_at_first_call (lik : Likelihood) (h : lik.shape ≠ [])
    (draws : List ℚ) (hd : draws ≠ []) :
    exceptOk (mkNestedSampler lik "slice") = true
      ∧ exceptOk (initialLogL ⟨"slice", lik⟩ draws) = false := by
  constructor
  · simp [mkNestedSampler, exceptOk]
  · cases draws with
    | nil => exact absurd rfl hd
    | cons d t =>
      simp [initialLogL, List.mapM, List.mapM.loop, callFixedLikelihood,
        fixedLikelihood, h, exceptOk, Bind.bind, Except.bind]

/-- Witness for C7 at the concrete non-scalar likelihood. -/
theorem nonscalar_error_at_first_call_witness :
    badShapeLik.shape ≠ [] ∧ ([0] : List ℚ) ≠ []
      ∧ (exceptOk (mkNestedSampler badShapeLik "slice") = true
          ∧ exceptOk (initialLogL ⟨"slice", badShapeLik⟩ [0]) = false) :=
  ⟨by decide, by decide,
    nonscalar_error_at_first_call badShapeLik (by decide) [0] (by decide)⟩

/-- C9: `UniformPrior(low=0, high=10)` maps uniform input 0.5 to exactly 5;
`DeltaPrior(value=3)` maps every uniform input to 3 and consumes zero uniform
dimensions. -/
theorem uniform_delta_prior_values :
    (UniformPrior 0 10).forward [1/2] = 5
      ∧ (∀ U : List ℚ, (DeltaPrior 3).forward U = 3)
      ∧ (DeltaPrior 3).uNdims = 0 :=
  ⟨by norm_num [UniformPrior], fun _ => rfl, rfl⟩

theorem getD_set_ne {α : Type} (l : List α) (i j : ℕ) (a d : α) (h : j ≠ i) :
    (l.set i a).getD j d = l.getD j d := by
  rcases lt_or_ge j l.length with hj | hj
  · rw [List.getD_eq_getElem _ _ (by simpa using hj), List.getD_eq_getElem _ _ hj,
      List.getElem_set_ne (by omega)]
  · rw [List.getD_eq_default _ _ (by simpa using hj), List.getD_eq_default _ _ hj]

theorem getD_set_self {α : Type} (l : List α) (i : ℕ) (a d : α) (h : i < l.length) :
    (l.set i a).getD i d = a := by
  rw [List.getD_eq_getElem _ _ (by simpa using h), List.getElem_set_self]

/-- The sampler invocation `_one_step` makes, with the arguments it passes:
the pre-step key, the minimum live log-likelihood as threshold, the live
uniform coordinates, the sampler state, the post-update log-volume and the
index being replaced. -/
def stepSamplerCall (ops : Ops) (sampler : ConstrainedSampler) (st : NSState) :
    SamplerResult :=
  sampler st.key (st.logLLive.getD (argmin st.logLLive) 0) st.livePointsU st.samplerState
    (trackerUpdate ops st.tracker st.logLLive.length
      (st.logLLive.getD (argmin st.logLLive) 0)).logX
    (argmin st.logLLive)

/-- The three live arrays after one step are the old arrays with the slot of
the first minimum overwritten by the sampler's new point. -/
theorem oneStep_live (ops : Ops) (sampler : ConstrainedSampler) (c o : Bool)
    (st : NSState) :
    (oneStep ops sampler c o st).logLLive
        = st.logLLive.set (argmin st.logLLive) (stepSamplerCall ops sampler st).logLNew
      ∧ (oneStep ops sampler c o st).livePoints
        = st.livePoints.set (argmin st.logLLive) (stepSamplerCall ops sampler st).xNew
      ∧ (oneStep ops sampler c o st).livePointsU
        = st.livePointsU.set (argmin st.logLLive) (stepSamplerCall ops sampler st).uNew := by
  cases o <;> cases c <;> exact ⟨rfl, rfl, rfl⟩

/-- C6: each engine step keeps every live array at exactly N entries and
overwrites exactly one slot — the index of the minimum live log-likelihood,
ties broken by lowest index — in uniform coordinates, constrained value and
log-likelihood, with the sampler's replacement point; every other slot is
unchanged, and the replaced index is the least index attaining the minimum. -/
theorem one_step_frame (ops : Ops) (sampler : ConstrainedSampler)
    (collect onlyMarg : Bool) (st : NSState) (N : ℕ)
    (hL : st.logLLive.length = N) (hX : st.livePoints.length = N)
    (hU : st.livePointsU.length = N) (hN : 0 < N) :
    ((oneStep ops sampler collect onlyMarg st).logLLive.length = N
        ∧ (oneStep ops sampler collect onlyMarg st).livePoints.length = N
        ∧ (oneStep ops sampler collect onlyMarg st).livePointsU.length = N)
      ∧ ((oneStep ops sampler collect onlyMarg st).logLLive
            = st.logLLive.set (argmin st.logLLive)
                (stepSamplerCall ops sampler st).logLNew
          ∧ (oneStep ops sampler collect onlyMarg st).livePoints
            = st.livePoints.set (argmin st.logLLive)
                (stepSamplerCall ops sampler st).xNew
          ∧ (oneStep ops sampler collect onlyMarg st).livePointsU
            = st.livePointsU.set (argmin st.logLLive)
                (stepSamplerCall ops sampler st).uNew)
      ∧ (∀ j, j ≠ argmin st.logLLive →
            (oneStep ops sampler collect onlyMarg st).logLLive.getD j 0
                = st.logLLive.getD j 0
              ∧ (oneStep ops sampler collect onlyMarg st).livePoints.getD j 0
                = st.livePoints.getD j 0
              ∧ (oneStep ops sampler collect onlyMarg st).livePointsU.getD j []
                = st.livePointsU.getD j [])
      ∧ (argmin st.logLLive < N
          ∧ (∀ j, j < N →
              st.logLLive.getD (argmin st.logLLive) 0 ≤ st.logLLive.getD j 0)
          ∧ ∀ j, j < argmin st.logLLive →
              st.logLLive.getD (argmin st.logLLive) 0 < st.logLLive.getD j 0) := by
  obtain ⟨h1, h2, h3⟩ := oneStep_live ops sampler collect onlyMarg st
  have hne : st.logLLive ≠ [] := List.length_pos.mp (hL ▸ hN)
  refine ⟨⟨by rw [h1]; simpa using hL, by rw [h2]; simpa using hX,
      by rw [h3]; simpa using hU⟩, ⟨h1, h2, h3⟩, ?_, ?_⟩
  · intro j hj
    exact ⟨by rw [h1, getD_set_ne _ _ _ _ _ hj], by rw [h2, getD_set_ne _ _ _ _ _ hj],
      by rw [h3, getD_set_ne _ _ _ _ _ hj]⟩
  · refine ⟨hL ▸ argmin_lt_length _ hne, fun j hj => ?_, fun j hj => ?_⟩
    · rw [getD_argmin _ hne]
      exact listMin_le_getD _ j (by omega)
    · rw [getD_argmin _ hne]
      exact listMin_lt_getD_of_lt_argmin _ j hj

/-- A concrete two-point state for witnesses. -/
def stD : NSState :=
  { key := 0, done := false, i := 0, numLikelihoodEvaluations := 2,
    livePointsU := [[0], [1]], livePoints := [0, 1], logLLive := [3, 4],
    deadPoints := some [0, 0], logX := some [none, none], logW := some [none, none],
    numDead := 0, logLDead := some [0, 0], samplerEfficiency := some [1, 1],
    status := 0, samplerState := 0, tracker := Tracker.init }

/-- Witness for C6 at the concrete state `stD`. -/
theorem one_step_frame_witness :
    (stD.logLLive.length = 2 ∧ stD.livePoints.length = 2
        ∧ stD.livePointsU.length = 2 ∧ 0 < 2)
      ∧ (((oneStep opsBig samplerInc true false stD).logLLive.length = 2
            ∧ (oneStep opsBig samplerInc true false stD).livePoints.length = 2
            ∧ (oneStep opsBig samplerInc true false stD).livePointsU.length = 2)
          ∧ ((oneStep opsBig samplerInc true false stD).logLLive
                = stD.logLLive.set (argmin stD.logLLive)
                    (stepSamplerCall opsBig samplerInc stD).logLNew
              ∧ (oneStep opsBig samplerInc true false stD).livePoints
                = stD.livePoints.set (argmin stD.logLLive)
                    (stepSamplerCall opsBig samplerInc stD).xNew
              ∧ (oneStep opsBig samplerInc true false stD).livePointsU
                = stD.livePointsU.set (argmin stD.logLLive)
                    (stepSamplerCall opsBig samplerInc stD).uNew)
          ∧ (∀ j, j ≠ argmin stD.logLLive →
                (oneStep opsBig samplerInc true false stD).logLLive.getD j 0
                    = stD.logLLive.getD j 0
                  ∧ (oneStep opsBig samplerInc true false stD).livePoints.getD j 0
                    = stD.livePoints.getD j 0
                  ∧ (oneStep opsBig samplerInc true false stD).livePointsU.getD j []
                    = stD.livePointsU.getD j [])
          ∧ (argmin stD.logLLive < 2
              ∧ (∀ j, j < 2 →
                  stD.logLLive.getD (argmin stD.logLLive) 0
                    ≤ stD.logLLive.getD j 0)
              ∧ ∀ j, j < argmin stD.logLLive →
                  stD.logLLive.getD (argmin stD.logLLive) 0
                    < stD.logLLive.getD j 0)) :=
  ⟨⟨rfl, rfl, rfl, by decide⟩,
    one_step_frame opsBig samplerInc true false stD 2 rfl rfl rfl (by decide)⟩

/-- Modelled from the spec: the constrained-sampler contract of spec 4.2 —
the returned replacement point's log-likelihood lies strictly above the
threshold (the eliminated minimum). -/
def SamplerAboveThreshold (sampler : ConstrainedSampler) : Prop :=
  ∀ k lmin lus ss lx im, lmin < (sampler k lmin lus ss lx im).logLNew

/-- The dead log-likelihood recorded at position `a` of the bounded buffer. -/
def deadAt (st : NSState) (a : ℕ) : ℚ :=
  (st.logLDead.getD []).getD a 0

/-- The first `num_dead` recorded dead log-likelihoods are non-decreasing. -/
def DeadMono (st : NSState) : Prop :=
  ∀ a b, a ≤ b → b < st.numDead → deadAt st a ≤ deadAt st b

/-- Projections of one step with bookkeeping enabled: the dead count and the
dead buffer advance by the eliminated minimum; `i` and `done` are untouched. -/
theorem oneStep_proj (ops : Ops) (sampler : ConstrainedSampler) (c : Bool)
    (st : NSState) :
    (oneStep ops sampler c false st).numDead = st.numDead + 1
      ∧ (oneStep ops sampler c false st).i = st.i
      ∧ (oneStep ops sampler c false st).logLDead
        = st.logLDead.map
            (fun b => b.set st.numDead (st.logLLive.getD (argmin st.logLLive) 0))
      ∧ (oneStep ops sampler c false st).done = st.done := by
  cases c <;> exact ⟨rfl, rfl, rfl, rfl⟩

/-- If the body leaves `done` unset, the iteration cap was not hit. -/
theorem body_done_cap (ops : Ops) (sampler : ConstrainedSampler) (f : ℚ)
    (maxS : ℕ) (c o : Bool) (st : NSState)
    (h : (body ops sampler f maxS c o st).done = false) : st.i + 1 < maxS := by
  have hi : (oneStep ops sampler c o st).i = st.i := by cases o <;> cases c <;> rfl
  simp only [body, Bool.or_eq_false_iff, decide_eq_false_iff_not, not_le, hi] at h
  exact h.2

/-- The loop invariant carrying the monotone dead sequence. -/
structure LoopInv (maxS : ℕ) (st : NSState) : Prop where
  iEq : st.i = st.numDead
  buf : ∃ l : List ℚ, st.logLDead = some l ∧ l.length = maxS
  ndLt : st.done = false → st.numDead < maxS
  liveNe : st.logLLive ≠ []
  mono : DeadMono st
  deadLe : ∀ a, a < st.numDead → ∀ j, j < st.logLLive.length →
    deadAt st a ≤ st.logLLive.getD j 0

theorem loopInv_body (ops : Ops) (sampler : ConstrainedSampler) (f : ℚ)
    (maxS : ℕ) (c : Bool) (st : NSState) (hs : SamplerAboveThreshold sampler)
    (inv : LoopInv maxS st) (hdone : st.done = false) :
    LoopInv maxS (body ops sampler f maxS c false st) := by
  obtain ⟨l, hbuf, hlen⟩ := inv.buf
  have hnd : st.numDead < maxS := inv.ndLt hdone
  have hmlt : argmin st.logLLive < st.logLLive.length :=
    argmin_lt_length _ inv.liveNe
  obtain ⟨hnd', hi', hdead', _⟩ := oneStep_proj ops sampler c st
  obtain ⟨hlive', _, _⟩ := oneStep_live ops sampler c false st
  have hbodyNd : (body ops sampler f maxS c false st).numDead = st.numDead + 1 := by
    show (oneStep ops sampler c false st).numDead = st.numDead + 1
    exact hnd'
  have hbodyI : (body ops sampler f maxS c false st).i = st.i + 1 := by
    show (oneStep ops sampler c false st).i + 1 = st.i + 1
    rw [hi']
  have hbodyDead : (body ops sampler f maxS c false st).logLDead
      = some (l.set st.numDead (st.logLLive.getD (argmin st.logLLive) 0)) := by
    show (oneStep ops sampler c false st).logLDead = _
    rw [hdead', hbuf]
    rfl
  have hbodyLive : (body ops sampler f maxS c false st).logLLive
      = st.logLLive.set (argmin st.logLLive)
          (stepSamplerCall ops sampler st).logLNew := by
    show (oneStep ops sampler c false st).logLLive = _
    exact hlive'
  have hv : st.logLLive.getD (argmin st.logLLive) 0
      < (stepSamplerCall ops sampler st).logLNew := hs _ _ _ _ _ _
  have hdeadAt : ∀ a, deadAt (body ops sampler f maxS c false st) a
      = (l.set st.numDead (st.logLLive.getD (argmin st.logLLive) 0)).getD a 0 := by
    intro a
    rw [deadAt, hbodyDead]
    rfl
  have hdeadAtOld : ∀ a, a < st.numDead →
      deadAt (body ops sampler f maxS c false st) a = deadAt st a := by
    intro a ha
    rw [hdeadAt, getD_set_ne _ _ _ _ _ (by omega), deadAt, hbuf]
    rfl
  have hdeadAtNew : deadAt (body ops sampler f maxS c false st) st.numDead
      = st.logLLive.getD (argmin st.logLLive) 0 := by
    rw [hdeadAt, getD_set_self _ _ _ _ (by omega)]
  refine ⟨?_, ?_, ?_, ?_, ?_, ?_⟩
  · rw [hbodyI, hbodyNd, inv.iEq]
  · exact ⟨_, hbodyDead, by simpa using hlen⟩
  · intro h
    have := body_done_cap ops sampler f maxS c false st h
    rw [hbodyNd, ← inv.iEq]
    omega
  · rw [hbodyLive]
    intro hcon
    have := congrArg List.length hcon
    simp at this
    exact inv.liveNe this
  · intro a b hab hb
    rw [hbodyNd] at hb
    rcases Nat.lt_or_ge b st.numDead with hblt | hbge
    · rw [hdeadAtOld a (by omega), hdeadAtOld b hblt]
      exact inv.mono a b hab hblt
    · have hbeq : b = st.numDead := by omega
      subst hbeq
      rcases Nat.lt_or_ge a st.numDead with halt | hage
      · rw [hdeadAtOld a halt, hdeadAtNew]
        exact inv.deadLe a halt _ hmlt
      · have ha' : a = st.numDead := by omega
        subst ha'
        exact le_refl _
  · intro a ha j hj
    rw [hbodyNd] at ha
    rw [hbodyLive] at hj
    have hjlen : j < st.logLLive.length := by simpa using hj
    have hjval : (body ops sampler f maxS c false st).logLLive.getD j 0
        = if j = argmin st.logLLive then (stepSamplerCall ops sampler st).logLNew
          else st.logLLive.getD j 0 := by
      rw [hbodyLive]
      by_cases hje : j = argmin st.logLLive
      · rw [if_pos hje, hje, getD_set_self _ _ _ _ hmlt]
      · rw [if_neg hje, getD_set_ne _ _ _ _ _ hje]
    rcases Nat.lt_or_ge a st.numDead with halt | hage
    · rw [hdeadAtOld a halt, hjval]
      by_cases hje : j = argmin st.logLLive
      · rw [if_pos hje]
        exact le_of_lt (lt_of_le_of_lt (inv.deadLe a halt _ hmlt) hv)
      · rw [if_neg hje]
        exact inv.deadLe a halt j hjlen
    · have : a = st.numDead := by omega
      subst this
      rw [hdeadAtNew, hjval]
      by_cases hje : j = argmin st.logLLive
      · rw [if_pos hje]
        exact le_of_lt hv
      · rw [if_neg hje, getD_argmin _ inv.liveNe]
        exact listMin_le_getD _ j hjlen

theorem loopInv_loop (ops : Ops) (sampler : ConstrainedSampler) (f : ℚ)
    (maxS : ℕ) (c : Bool) (hs : SamplerAboveThreshold sampler) :
    ∀ fuel st, LoopInv maxS st →
      LoopInv maxS (loop ops sampler f maxS c false fuel st) := by
  intro fuel
  induction fuel with
  | zero => intro st inv; exact inv
  | succ fuel ih =>
    intro st inv
    rw [loop]
    by_cases hd : st.done
    · simpa [hd] using inv
    · rw [if_neg (by simp [hd])]
      exact ih _ (loopInv_body ops sampler f maxS c st hs inv (by simpa using hd))

theorem loopInv_initial (env : Env) (k n maxS : ℕ) (c : Bool)
    (hn : 0 < n) (hm : 0 < maxS) :
    LoopInv maxS (initialState env k n maxS c false) := by
  refine ⟨rfl, ⟨List.replicate maxS 0, ?_, by simp⟩, fun _ => hm, ?_, ?_, ?_⟩
  · cases c <;> rfl
  · apply List.length_pos.mp
    simp [initialState, hn]
  · intro a b hab hb
    exact absurd hb (by simp [initialState])
  · intro a ha
    exact absurd ha (by simp [initialState])

/-- C2: for every completed run with bookkeeping enabled, under the spec's
sampler contract (the replacement's log-likelihood is strictly greater than
the eliminated threshold), the recorded dead-point log-likelihood sequence —
the first `num_dead` entries of the `log_L_dead` buffer — is non-decreasing. -/
theorem dead_loglik_sequence_monotone (ops : Ops) (env : Env)
    (sampler : ConstrainedSampler) (k n maxS : ℕ) (collect : Bool) (f : ℚ)
    (hs : SamplerAboveThreshold sampler) (hn : 0 < n) (hm : 0 < maxS) :
    DeadMono (run ops env sampler k n maxS collect false f) :=
  (loopInv_loop ops sampler f maxS collect hs maxS
    (initialState env k n maxS collect false)
    (loopInv_initial env k n maxS collect hn hm)).mono

/-- Witness for C2 at a concrete configuration and the strictly-improving
sampler `samplerInc`. -/
theorem dead_loglik_sequence_monotone_witness :
    SamplerAboveThreshold samplerInc ∧ 0 < 1 ∧ 0 < 1
      ∧ DeadMono (run opsBig envZero samplerInc 0 1 1 true false 1) :=
  ⟨fun _ lmin _ _ _ _ => lt_add_one lmin, by decide, by decide,
    dead_loglik_sequence_monotone opsBig envZero samplerInc 0 1 1 true 1
      (fun _ lmin _ _ _ _ => lt_add_one lmin) (by decide) (by decide)⟩

/-- A clamped Gumbel component at a finite input below 1 is finite: the clamp
lifts the inner argument to at least machine epsilon, so both logarithms act
on strictly positive finite values. -/
theorem gumbelComp_eval_of_lt_one (rlog : ℚ → ℚ) (q : ℚ)
    (h1 : ∀ r : ℚ, 0 < r → r < 1 → rlog r < 0) (h0 : 0 ≤ q) (hq : q < 1) :
    gumbelComp rlog (Fl.fin q) = Fl.fin (-(rlog (-(rlog (max q machEps))))) := by
  have hm0 : 0 < max q machEps := lt_max_of_lt_right (by norm_num [machEps])
  have hm1 : max q machEps < 1 := max_lt hq (by norm_num [machEps])
  have hr : rlog (max q machEps) < 0 := h1 _ hm0 hm1
  unfold gumbelComp
  have e1 : flMax (Fl.fin q) (Fl.fin machEps) = Fl.fin (max q machEps) := rfl
  rw [e1]
  have e2 : flLog rlog (Fl.fin (max q machEps)) = Fl.fin (rlog (max q machEps)) := by
    simp [flLog, hm0]
  rw [e2]
  have e3 : flNeg (Fl.fin (rlog (max q machEps)))
      = Fl.fin (-(rlog (max q machEps))) := rfl
  rw [e3]
  have e4 : flLog rlog (Fl.fin (-(rlog (max q machEps))))
      = Fl.fin (rlog (-(rlog (max q machEps)))) := by
    simp [flLog, neg_pos.mpr hr]
  rw [e4]
  rfl

/-- At input exactly 1 the clamped Gumbel component is `+inf` (not NaN): the
inner logarithm is zero and the outer logarithm of zero is `-inf`. -/
theorem gumbelComp_eval_at_one (rlog : ℚ → ℚ) (h2 : rlog 1 = 0) :
    gumbelComp rlog (Fl.fin 1) = Fl.pinf := by
  unfold gumbelComp
  have e1 : flMax (Fl.fin 1) (Fl.fin machEps) = Fl.fin (max 1 machEps) := rfl
  have hm : max (1 : ℚ) machEps = 1 := max_eq_left (by norm_num [machEps])
  rw [e1, hm]
  have e2 : flLog rlog (Fl.fin 1) = Fl.fin 0 := by
    simp [flLog, h2]
  rw [e2]
  have e3 : flNeg (Fl.fin 0) = Fl.fin 0 := by
    simp [flNeg]
  rw [e3]
  have e4 : flLog rlog (Fl.fin 0) = Fl.ninf := by
    simp [flLog]
  rw [e4]
  rfl

/-- C8: the categorical forward map produces a finite output (an argmax
index) for every uniform input vector with components in the closed interval
[0,1]; the clamped Gumbel components are never NaN and never `-inf`, and at a
component equal to exactly 0 the Gumbel value is finite because the uniform
input is clamped to machine epsilon before the log-log transform.  `rlog` is
any function agreeing in sign with the real logarithm on (0,1]. -/
theorem categorical_forward_finite (rlog : ℚ → ℚ) (U logits : List Fl)
    (h1 : ∀ r : ℚ, 0 < r → r < 1 → rlog r < 0) (h2 : rlog 1 = 0)
    (hU : ∀ u ∈ U, ∃ q : ℚ, u = Fl.fin q ∧ 0 ≤ q ∧ q ≤ 1) :
    (categoricalForward rlog U logits).isFinite = true
      ∧ (∀ g ∈ gumbelForward rlog U, g ≠ Fl.nan ∧ g ≠ Fl.ninf)
      ∧ (gumbelComp rlog (Fl.fin 0)).isFinite = true := by
  refine ⟨rfl, ?_, ?_⟩
  · intro g hg
    rw [gumbelForward] at hg
    obtain ⟨u, hu, rfl⟩ := List.mem_map.mp hg
    obtain ⟨q, rfl, h0, hq⟩ := hU u hu
    rcases lt_or_eq_of_le hq with hlt | heq
    · rw [gumbelComp_eval_of_lt_one rlog q h1 h0 hlt]
      exact ⟨fun h => Fl.noConfusion h, fun h => Fl.noConfusion h⟩
    · rw [heq, gumbelComp_eval_at_one rlog h2]
      exact ⟨fun h => Fl.noConfusion h, fun h => Fl.noConfusion h⟩
  · rw [gumbelComp_eval_of_lt_one rlog 0 h1 le_rfl (by norm_num)]
    rfl

/-- A concrete stand-in agreeing in sign with the real logarithm on (0,1]. -/
def rlogW : ℚ → ℚ := fun q => q - 1

/-- Witness for C8 at a uniform input whose single component is exactly 0. -/
theorem categorical_forward_finite_witness :
    (∀ r : ℚ, 0 < r → r < 1 → rlogW r < 0) ∧ rlogW 1 = 0
      ∧ (∀ u ∈ [Fl.fin 0], ∃ q : ℚ, u = Fl.fin q ∧ 0 ≤ q ∧ q ≤ 1)
      ∧ ((categoricalForward rlogW [Fl.fin 0] [Fl.fin 0]).isFinite = true
          ∧ (∀ g ∈ gumbelForward rlogW [Fl.fin 0], g ≠ Fl.nan ∧ g ≠ Fl.ninf)
          ∧ (gumbelComp rlogW (Fl.fin 0)).isFinite = true) := by
  have hU : ∀ u ∈ [Fl.fin 0], ∃ q : ℚ, u = Fl.fin q ∧ 0 ≤ q ∧ q ≤ 1 := by
    intro u hu
    simp only [List.mem_singleton] at hu
    exact ⟨0, hu, le_refl 0, by norm_num⟩
  exact ⟨fun r _ hr => sub_neg.mpr hr, by norm_num [rlogW], hU,
    categorical_forward_finite rlogW [Fl.fin 0] [Fl.fin 0]
      (fun r _ hr => sub_neg.mpr hr) (by norm_num [rlogW]) hU⟩

theorem sum_map_exp_pos (l : List ℝ) (h : l ≠ []) : 0 < (l.map Real.exp).sum := by
  cases l with
  | nil => exact absurd rfl h
  | cons x t =>
    simp only [List.map_cons, List.sum_cons]
    have ht : 0 ≤ (t.map Real.exp).sum := by
      apply List.sum_nonneg
      intro y hy
      obtain ⟨z, _, rfl⟩ := List.mem_map.mp hy
      exact (Real.exp_pos z).le
    linarith [Real.exp_pos x]

theorem sum_exp_shift (l : List ℝ) (c : ℝ) :
    (l.map (fun x => Real.exp (x - c))).sum = (l.map Real.exp).sum * Real.exp (-c) := by
  induction l with
  | nil => simp
  | cons x t ih =>
    simp only [List.map_cons, List.sum_cons, add_mul, ih]
    congr 1
    rw [Real.exp_sub, Real.exp_neg, div_eq_mul_inv]

/-- Shifting every entry by a constant shifts the log-sum-exp by the same
constant. -/
theorem lseR_shift (l : List ℝ) (h : l ≠ []) (c : ℝ) :
    lseR (l.map (fun x => x - c)) = lseR l - c := by
  unfold lseR
  rw [List.map_map]
  have hs : (l.map (Real.exp ∘ fun x => x - c)).sum
      = (l.map Real.exp).sum * Real.exp (-c) := sum_exp_shift l c
  rw [hs, Real.log_mul (ne_of_gt (sum_map_exp_pos l h)) (ne_of_gt (Real.exp_pos _)),
    Real.log_exp]
  ring

/-- C10: the per-sample importance weights of `_finalise_results` are
normalised: whenever `logsumexp(log_w)` is finite with value `c`, the shifted
buffer `log_p = log_w - c` satisfies `logsumexp(log_p) = 0` — its
linear-space weights sum to one. -/
theorem log_p_normalised (logW : List (Option ℝ)) (c : ℝ)
    (h : lseO logW = some c) : lseO (finalLogP logW c) = some 0 := by
  unfold lseO at h
  by_cases hne : logW.filterMap id = []
  · rw [if_pos hne] at h
    exact absurd h (by simp)
  · rw [if_neg hne] at h
    have hc : c = lseR (logW.filterMap id) := (Option.some_inj.mp h).symm
    have hfm : (finalLogP logW c).filterMap id
        = (logW.filterMap id).map (fun w => w - c) := by
      unfold finalLogP
      rw [List.filterMap_map, List.map_filterMap]
      rfl
    unfold lseO
    rw [hfm]
    rw [if_neg (by simpa using hne)]
    rw [lseR_shift _ hne c, ← hc]
    simp

/-- Witness for C10 at the one-entry weight buffer `[some 0]`. -/
theorem log_p_normalised_witness :
    lseO [(some 0 : Option ℝ)] = some 0
      ∧ lseO (finalLogP [(some 0 : Option ℝ)] 0) = some 0 := by
  have h : lseO [(some 0 : Option ℝ)] = some 0 := by
    unfold lseO
    rw [if_neg (by simp)]
    simp [lseR]
  exact ⟨h, log_p_normalised _ 0 h⟩

end JaxNS
